import Mathlib

/-!
# Verification of the SignalSim signal-processing core

Shallow embedding of the numerical core of the SignalSim repository
(`fourier-transform.service.ts`, `modulation.service.ts`,
`transmitter.service.ts`, `receiver.service.ts`, `filter.service.ts`)
over exact real arithmetic (`ℝ`), with JavaScript complex pairs
`{real, imag}` embedded as `ℂ`.  JavaScript `number` is modelled as `ℝ`;
the complex-pair arithmetic written out in the source
(`twiddle.real * odd.real - twiddle.imag * odd.imag`, …) is exactly
complex multiplication, so `ℂ`'s ring operations embed it faithfully.
-/

namespace SignalSim

open Finset

noncomputable section

/-- Even/odd index split used by the Cooley–Tukey recursion
(`for i … if (i % 2 === 0) even.push(x[i]) else odd.push(x[i])`). -/
def deinterleave {α : Type} : List α → List α × List α
  | [] => ([], [])
  | [a] => ([a], [])
  | a :: b :: rest =>
      let p := deinterleave rest
      (a :: p.1, b :: p.2)

theorem deinterleave_fst_length {α : Type} :
    ∀ l : List α, (deinterleave l).1.length = (l.length + 1) / 2
  | [] => by simp [deinterleave]
  | [_] => by simp [deinterleave]
  | _ :: _ :: rest => by
      simp [deinterleave, deinterleave_fst_length rest]
      omega

theorem deinterleave_snd_length {α : Type} :
    ∀ l : List α, (deinterleave l).2.length = l.length / 2
  | [] => by simp [deinterleave]
  | [_] => by simp [deinterleave]
  | _ :: _ :: rest => by
      simp [deinterleave, deinterleave_snd_length rest]
      omega

/-- The twiddle angle `-2 * Math.PI * k / N` of the combine loop. -/
def fftAngle (N k : ℕ) : ℝ := -2 * Real.pi * k / N

/-- The twiddle factor `{ real: cos angle, imag: sin angle }`. -/
def twiddle (N k : ℕ) : ℂ :=
  (Real.cos (fftAngle N k) : ℂ) + (Real.sin (fftAngle N k) : ℂ) * Complex.I

/-- `fftComplex` from `fourier-transform.service.ts`: radix-2 Cooley–Tukey
FFT of a complex sequence.  The combine loop writes `result[k]` and
`result[k + N/2]` for `k < N/2`; for even `N` (the only lengths reached
from the repository's call sites, which zero-pad to a power of two)
this is the concatenation of the two half-length blocks below. -/
def fftComplex (x : List ℂ) : List ℂ :=
  if _h : x.length ≤ 1 then x
  else
    let E := fftComplex (deinterleave x).1
    let O := fftComplex (deinterleave x).2
    (List.range (x.length / 2)).map
      (fun k => E.getD k 0 + twiddle x.length k * O.getD k 0) ++
    (List.range (x.length / 2)).map
      (fun k => E.getD k 0 - twiddle x.length k * O.getD k 0)
termination_by x.length
decreasing_by
  · rw [deinterleave_fst_length]; omega
  · rw [deinterleave_snd_length]; omega

/-- `fft` from `fourier-transform.service.ts`: real input, complex output.
Base case `N ≤ 1` returns `[{ real: x[0] || 0, imag: 0 }]` (the empty
input yields the single bin `(0, 0)`). -/
def fft (x : List ℝ) : List ℂ :=
  if _h : x.length ≤ 1 then [((x.headD 0 : ℝ) : ℂ)]
  else
    let E := fft (deinterleave x).1
    let O := fft (deinterleave x).2
    (List.range (x.length / 2)).map
      (fun k => E.getD k 0 + twiddle x.length k * O.getD k 0) ++
    (List.range (x.length / 2)).map
      (fun k => E.getD k 0 - twiddle x.length k * O.getD k 0)
termination_by x.length
decreasing_by
  · rw [deinterleave_fst_length]; omega
  · rw [deinterleave_snd_length]; omega

/-- `ifft` from `fourier-transform.service.ts`: conjugate, forward FFT of
the conjugate, real part divided by `N`. -/
def ifft (X : List ℂ) : List ℝ :=
  let conjX := X.map (fun c => (⟨c.re, -c.im⟩ : ℂ))
  (fftComplex conjX).map (fun c => c.re / (X.length : ℝ))

/-! ## DFT characterization of the radix-2 recursion -/

/-- The root-of-unity helper `w N m = e^{2πi·m/N}` (as `exp (θ·I)` with a
single real angle `θ`). -/
def w (N : ℕ) (m : ℤ) : ℂ :=
  Complex.exp (((2 * Real.pi * (m : ℝ) / (N : ℝ) : ℝ) : ℂ) * Complex.I)

theorem w_add (N : ℕ) (a b : ℤ) : w N (a + b) = w N a * w N b := by
  rw [w, w, w, ← Complex.exp_add, ← add_mul, ← Complex.ofReal_add]
  congr 2
  push_cast
  ring

theorem w_zero (N : ℕ) : w N 0 = 1 := by
  simp [w]

theorem w_nat_mul (N : ℕ) (t : ℤ) : w N ((N : ℤ) * t) = 1 := by
  rcases Nat.eq_zero_or_pos N with h | h
  · simp [w, h]
  · have hN : (N : ℝ) ≠ 0 := Nat.cast_ne_zero.mpr h.ne'
    have harg : (2 * Real.pi * (((N : ℤ) * t : ℤ) : ℝ) / (N : ℝ) : ℝ) = (t : ℝ) * (2 * Real.pi) := by
      push_cast
      field_simp
      ring
    rw [w, harg]
    have h1 := Complex.exp_int_mul_two_pi_mul_I t
    rw [← h1]
    congr 1
    push_cast
    ring

theorem w_pow (N : ℕ) (d : ℤ) (k : ℕ) : w N d ^ k = w N (d * k) := by
  rw [w, w, ← Complex.exp_nat_mul]
  have : ((k : ℕ) : ℂ) * (((2 * Real.pi * (d : ℝ) / (N : ℝ) : ℝ) : ℂ) * Complex.I)
      = ((2 * Real.pi * ((d * (k : ℤ) : ℤ) : ℝ) / (N : ℝ) : ℝ) : ℂ) * Complex.I := by
    push_cast
    ring
  rw [this]

theorem w_ne_one (N : ℕ) (hN : 0 < N) (d : ℤ) (hd : ¬ (N : ℤ) ∣ d) : w N d ≠ 1 := by
  intro h
  rw [w, Complex.exp_eq_one_iff] at h
  obtain ⟨n, hn⟩ := h
  have hNC : ((N : ℕ) : ℂ) ≠ 0 := Nat.cast_ne_zero.mpr hN.ne'
  have h2πI : (2 * ((Real.pi : ℝ) : ℂ) * Complex.I) ≠ 0 := by
    refine mul_ne_zero (mul_ne_zero two_ne_zero ?_) Complex.I_ne_zero
    exact Complex.ofReal_ne_zero.mpr Real.pi_ne_zero
  have hn' : ((d : ℝ) : ℂ) * (2 * ((Real.pi : ℝ) : ℂ) * Complex.I)
      = ((n : ℂ) * ((N : ℕ) : ℂ)) * (2 * ((Real.pi : ℝ) : ℂ) * Complex.I) := by
    push_cast at hn ⊢
    field_simp [hNC] at hn
    linear_combination hn
  have hdn : ((d : ℝ) : ℂ) = (n : ℂ) * ((N : ℕ) : ℂ) := mul_right_cancel₀ h2πI hn'
  have hdnZ : d = n * N := by exact_mod_cast hdn
  exact hd ⟨n, by rw [hdnZ, mul_comm]⟩

/-- Geometric-sum orthogonality of the roots of unity. -/
theorem w_sum_orthogonal (N : ℕ) (hN : 0 < N) (d : ℤ) :
    ∑ k ∈ Finset.range N, w N (d * k) = if (N : ℤ) ∣ d then (N : ℂ) else 0 := by
  by_cases hdvd : (N : ℤ) ∣ d
  · obtain ⟨t, ht⟩ := hdvd
    have : ∀ k ∈ Finset.range N, w N (d * k) = 1 := by
      intro k _
      rw [ht, mul_assoc, w_nat_mul]
    rw [Finset.sum_congr rfl this, if_pos ⟨t, ht⟩]
    simp
  · rw [if_neg hdvd]
    have hz : w N d ≠ 1 := w_ne_one N hN d hdvd
    have hsum : ∑ k ∈ Finset.range N, w N (d * k) = ∑ k ∈ Finset.range N, w N d ^ k := by
      refine Finset.sum_congr rfl fun k _ => ?_
      rw [w_pow]
    rw [hsum, geom_sum_eq hz]
    rw [w_pow]
    have : (d * (N : ℤ)) = (N : ℤ) * d := by ring
    rw [this, w_nat_mul]
    simp

theorem w_conj (N : ℕ) (m : ℤ) : (starRingEnd ℂ) (w N m) = w N (-m) := by
  rw [w, w, ← Complex.exp_conj, map_mul, Complex.conj_I, Complex.conj_ofReal,
    mul_neg, ← neg_mul, ← Complex.ofReal_neg]
  congr 2
  push_cast
  ring

/-- The code's twiddle factor is `w N (-k)`. -/
theorem twiddle_eq_w (N k : ℕ) : twiddle N k = w N (-(k : ℤ)) := by
  have hθ : fftAngle N k = (2 * Real.pi * ((-(k : ℤ) : ℤ) : ℝ) / (N : ℝ) : ℝ) := by
    rw [fftAngle]
    push_cast
    ring
  rw [twiddle, w, ← hθ, Complex.exp_mul_I, Complex.ofReal_cos, Complex.ofReal_sin]

theorem w_congr (N : ℕ) {a b : ℤ} (h : a = b) : w N a = w N b := by rw [h]

theorem w_double (M : ℕ) (d : ℤ) : w (2 * M) (2 * d) = w M d := by
  rw [w, w]
  have harg : (2 * Real.pi * ((2 * d : ℤ) : ℝ) / ((2 * M : ℕ) : ℝ) : ℝ)
      = (2 * Real.pi * (d : ℝ) / (M : ℝ) : ℝ) := by
    push_cast
    rw [show (2 : ℝ) * Real.pi * (2 * (d : ℝ)) = 2 * (2 * Real.pi * (d : ℝ)) from by ring,
      mul_div_mul_left _ _ (two_ne_zero)]
  rw [harg]

theorem w_half_neg_one (K : ℕ) (hK : 0 < K) : w (2 * K) (-(K : ℤ)) = -1 := by
  have hKR : (K : ℝ) ≠ 0 := Nat.cast_ne_zero.mpr hK.ne'
  have harg : (2 * Real.pi * ((-(K : ℤ) : ℤ) : ℝ) / ((2 * K : ℕ) : ℝ) : ℝ) = -Real.pi := by
    push_cast
    field_simp
    ring
  rw [w, harg, Complex.ofReal_neg, neg_mul, Complex.exp_neg, Complex.exp_pi_mul_I]
  norm_num

theorem getD_map_range {α : Type} {d : α} (n k : ℕ) (f : ℕ → α) (h : k < n) :
    ((List.range n).map f).getD k d = f k := by
  have hlen : k < ((List.range n).map f).length := by simpa using h
  rw [List.getD_eq_getElem _ _ hlen]
  simp

theorem sum_range_double (n : ℕ) (f : ℕ → ℂ) :
    ∑ j ∈ Finset.range (2 * n), f j
      = (∑ j ∈ Finset.range n, f (2 * j)) + ∑ j ∈ Finset.range n, f (2 * j + 1) := by
  induction n with
  | zero => simp
  | succ n ih =>
      have h2 : 2 * (n + 1) = (2 * n + 1) + 1 := by ring
      rw [h2, Finset.sum_range_succ, Finset.sum_range_succ, ih,
        Finset.sum_range_succ, Finset.sum_range_succ]
      ring

theorem deinterleave_fst_getD {α : Type} (d : α) :
    ∀ (l : List α) (j : ℕ), (deinterleave l).1.getD j d = l.getD (2 * j) d
  | [], j => by simp [deinterleave]
  | [a], j => by
      cases j with
      | zero => simp [deinterleave]
      | succ j =>
          simp only [deinterleave]
          rw [List.getD_eq_default _ _ (by simp),
            List.getD_eq_default _ _ (by simp only [List.length_singleton]; omega)]
  | a :: b :: rest, j => by
      cases j with
      | zero => simp [deinterleave]
      | succ j =>
          have ih := deinterleave_fst_getD d rest j
          simp only [deinterleave]
          rw [show 2 * (j + 1) = (2 * j + 1) + 1 from by ring]
          simpa using ih

theorem deinterleave_snd_getD {α : Type} (d : α) :
    ∀ (l : List α) (j : ℕ), (deinterleave l).2.getD j d = l.getD (2 * j + 1) d
  | [], j => by simp [deinterleave]
  | [a], j => by
      simp only [deinterleave]
      rw [List.getD_eq_default _ _ (by simp),
        List.getD_eq_default _ _ (by simp only [List.length_singleton]; omega)]
  | a :: b :: rest, j => by
      cases j with
      | zero => simp [deinterleave]
      | succ j =>
          have ih := deinterleave_snd_getD d rest j
          simp only [deinterleave]
          rw [show 2 * (j + 1) + 1 = (2 * j + 1) + 1 + 1 from by ring]
          simpa using ih

/-- The radix-2 recursion computes the DFT on power-of-two lengths. -/
theorem fftComplex_dft :
    ∀ (m : ℕ) (x : List ℂ), x.length = 2 ^ m →
      (fftComplex x).length = x.length ∧
      ∀ k, k < x.length →
        (fftComplex x).getD k 0
          = ∑ j ∈ Finset.range x.length,
              x.getD j 0 * w x.length (-((j : ℤ) * (k : ℤ))) := by
  intro m
  induction m with
  | zero =>
      intro x hx
      simp only [pow_zero] at hx
      have hfft : fftComplex x = x := by
        rw [fftComplex, dif_pos (by omega)]
      refine ⟨by rw [hfft], ?_⟩
      intro k hk
      have hk0 : k = 0 := by omega
      subst hk0
      rw [hfft, hx, Finset.sum_range_one]
      simp [w_zero]
  | succ m ih =>
      intro x hx
      have hK : 0 < 2 ^ m := pow_pos two_pos m
      have hx2 : x.length = 2 * 2 ^ m := by rw [hx]; ring
      have hnot : ¬ x.length ≤ 1 := by omega
      have he : (deinterleave x).1.length = 2 ^ m := by
        rw [deinterleave_fst_length, hx2]; omega
      have ho : (deinterleave x).2.length = 2 ^ m := by
        rw [deinterleave_snd_length, hx2]; omega
      obtain ⟨hElen, hE⟩ := ih (deinterleave x).1 he
      obtain ⟨hOlen, hO⟩ := ih (deinterleave x).2 ho
      have hhalf : x.length / 2 = 2 ^ m := by omega
      have hunfold : fftComplex x =
          (List.range (x.length / 2)).map
            (fun k => (fftComplex (deinterleave x).1).getD k 0
              + twiddle x.length k * (fftComplex (deinterleave x).2).getD k 0) ++
          (List.range (x.length / 2)).map
            (fun k => (fftComplex (deinterleave x).1).getD k 0
              - twiddle x.length k * (fftComplex (deinterleave x).2).getD k 0) := by
        rw [fftComplex, dif_neg hnot]
      have hAlen : ((List.range (x.length / 2)).map
          (fun k => (fftComplex (deinterleave x).1).getD k 0
            + twiddle x.length k * (fftComplex (deinterleave x).2).getD k 0)).length = 2 ^ m := by
        simp [hhalf]
      constructor
      · rw [hunfold]
        simp only [List.length_append, List.length_map, List.length_range, hhalf]
        omega
      · intro k hk
        -- even / odd half sums, expressed over the full-length roots
        have heSum : ∀ k' : ℕ,
            (fftComplex (deinterleave x).1).getD k' 0
              = ∑ j ∈ Finset.range (2 ^ m),
                x.getD (2 * j) 0 * w x.length (-(((2 * j : ℕ) : ℤ) * (k' : ℤ))) →
            True := fun _ _ => trivial
        clear heSum
        have hEx : ∀ k' : ℕ, k' < 2 ^ m →
            (fftComplex (deinterleave x).1).getD k' 0
              = ∑ j ∈ Finset.range (2 ^ m),
                x.getD (2 * j) 0 * w x.length (-(((2 * j : ℕ) : ℤ) * (k' : ℤ))) := by
          intro k' hk'
          rw [hE k' (by omega), he]
          refine Finset.sum_congr rfl fun j hj => ?_
          rw [deinterleave_fst_getD]
          congr 1
          calc w (2 ^ m) (-((j : ℤ) * (k' : ℤ)))
              = w (2 * 2 ^ m) (2 * -((j : ℤ) * (k' : ℤ))) := (w_double _ _).symm
            _ = w (2 * 2 ^ m) (-(((2 * j : ℕ) : ℤ) * (k' : ℤ))) :=
                w_congr _ (by push_cast; ring)
            _ = w x.length (-(((2 * j : ℕ) : ℤ) * (k' : ℤ))) := by rw [← hx2]
        have hOx : ∀ k' : ℕ, k' < 2 ^ m →
            (fftComplex (deinterleave x).2).getD k' 0
              = ∑ j ∈ Finset.range (2 ^ m),
                x.getD (2 * j + 1) 0 * w x.length (-(((2 * j : ℕ) : ℤ) * (k' : ℤ))) := by
          intro k' hk'
          rw [hO k' (by omega), ho]
          refine Finset.sum_congr rfl fun j hj => ?_
          rw [deinterleave_snd_getD]
          congr 1
          calc w (2 ^ m) (-((j : ℤ) * (k' : ℤ)))
              = w (2 * 2 ^ m) (2 * -((j : ℤ) * (k' : ℤ))) := (w_double _ _).symm
            _ = w (2 * 2 ^ m) (-(((2 * j : ℕ) : ℤ) * (k' : ℤ))) :=
                w_congr _ (by push_cast; ring)
            _ = w x.length (-(((2 * j : ℕ) : ℤ) * (k' : ℤ))) := by rw [← hx2]
        by_cases hkK : k < 2 ^ m
        · -- first block of the butterfly
          rw [hunfold, List.getD_append _ _ _ _ (by rw [hAlen]; exact hkK),
            getD_map_range _ _ _ (by rw [hhalf]; exact hkK)]
          rw [hEx k hkK, hOx k hkK, twiddle_eq_w, Finset.mul_sum]
          have hoddterm : ∀ j ∈ Finset.range (2 ^ m),
              w x.length (-(k : ℤ)) *
                  (x.getD (2 * j + 1) 0 * w x.length (-(((2 * j : ℕ) : ℤ) * (k : ℤ))))
                = x.getD (2 * j + 1) 0 * w x.length (-(((2 * j + 1 : ℕ) : ℤ) * (k : ℤ))) := by
            intro j hj
            rw [← mul_assoc, mul_comm (w _ _) (x.getD _ 0), mul_assoc, ← w_add]
            congr 1
            exact w_congr _ (by push_cast; ring)
          rw [Finset.sum_congr rfl hoddterm, hx2,
            sum_range_double (2 ^ m) (fun i => x.getD i 0 * w (2 * 2 ^ m) (-((i : ℤ) * (k : ℤ))))]
        · -- second block of the butterfly
          push_neg at hkK
          have hk2 : k - 2 ^ m < 2 ^ m := by omega
          have hkZ : (k : ℤ) = ((k - 2 ^ m : ℕ) : ℤ) + (2 ^ m : ℕ) := by
            push_cast [Nat.cast_sub hkK]
            ring
          rw [hunfold, List.getD_append_right _ _ _ _ (by rw [hAlen]; exact hkK)]
          rw [hAlen, getD_map_range _ _ _ (by rw [hhalf]; exact hk2)]
          rw [hEx _ hk2, hOx _ hk2, twiddle_eq_w, Finset.mul_sum, hx2,
            sum_range_double (2 ^ m) (fun i => x.getD i 0 * w (2 * 2 ^ m) (-((i : ℤ) * (k : ℤ))))]
          have heven : ∀ j ∈ Finset.range (2 ^ m),
              x.getD (2 * j) 0 * w (2 * 2 ^ m) (-(((2 * j : ℕ) : ℤ) * (k : ℤ)))
                = x.getD (2 * j) 0 *
                    w (2 * 2 ^ m) (-(((2 * j : ℕ) : ℤ) * ((k - 2 ^ m : ℕ) : ℤ))) := by
            intro j hj
            congr 1
            have harg : (-(((2 * j : ℕ) : ℤ) * (k : ℤ)))
                = (-(((2 * j : ℕ) : ℤ) * ((k - 2 ^ m : ℕ) : ℤ)))
                  + ((2 * 2 ^ m : ℕ) : ℤ) * (-(j : ℤ)) := by
              rw [hkZ]
              push_cast
              ring
            rw [harg, w_add, w_nat_mul, mul_one]
          have hodd : ∀ j ∈ Finset.range (2 ^ m),
              x.getD (2 * j + 1) 0 * w (2 * 2 ^ m) (-(((2 * j + 1 : ℕ) : ℤ) * (k : ℤ)))
                = -(w (2 * 2 ^ m) (-((k - 2 ^ m : ℕ) : ℤ)) *
                    (x.getD (2 * j + 1) 0 *
                      w (2 * 2 ^ m) (-(((2 * j : ℕ) : ℤ) * ((k - 2 ^ m : ℕ) : ℤ))))) := by
            intro j hj
            have harg : (-(((2 * j + 1 : ℕ) : ℤ) * (k : ℤ)))
                = ((-((k - 2 ^ m : ℕ) : ℤ))
                    + (-(((2 * j : ℕ) : ℤ) * ((k - 2 ^ m : ℕ) : ℤ))))
                  + (((2 * 2 ^ m : ℕ) : ℤ) * (-(j : ℤ)) + (-((2 ^ m : ℕ) : ℤ))) := by
              rw [hkZ]
              push_cast
              ring
            rw [harg, w_add, w_add, w_add, w_nat_mul, w_half_neg_one _ hK]
            ring
          rw [Finset.sum_congr rfl heven, Finset.sum_congr rfl hodd,
            Finset.sum_neg_distrib]
          ring

theorem deinterleave_map {α β : Type} (f : α → β) :
    ∀ l : List α,
      deinterleave (l.map f) = ((deinterleave l).1.map f, (deinterleave l).2.map f)
  | [] => by simp [deinterleave]
  | [a] => by simp [deinterleave]
  | a :: b :: rest => by
      simp [deinterleave, deinterleave_map f rest]

theorem getD_map_ofReal (l : List ℝ) (n : ℕ) :
    (l.map (fun r : ℝ => (r : ℂ))).getD n 0 = ((l.getD n 0 : ℝ) : ℂ) := by
  rw [show (0 : ℂ) = ((0 : ℝ) : ℂ) from Complex.ofReal_zero.symm]
  exact List.getD_map (l := l) (d := (0 : ℝ)) (n := n) (fun r : ℝ => (r : ℂ))

/-- On power-of-two lengths the real-input `fft` is `fftComplex` on the
coerced input. -/
theorem fft_eq_fftComplex :
    ∀ (m : ℕ) (x : List ℝ), x.length = 2 ^ m →
      fft x = fftComplex (x.map (fun r : ℝ => (r : ℂ))) := by
  intro m
  induction m with
  | zero =>
      intro x hx
      simp only [pow_zero] at hx
      obtain ⟨a, rfl⟩ := List.length_eq_one.mp hx
      rw [fft, dif_pos (by simp), fftComplex, dif_pos (by simp)]
      simp only [List.map_cons, List.map_nil, List.headD_cons]
  | succ m ih =>
      intro x hx
      have hK : 0 < 2 ^ m := pow_pos two_pos m
      have hx2 : x.length = 2 * 2 ^ m := by rw [hx]; ring
      have hnot : ¬ x.length ≤ 1 := by omega
      have he : (deinterleave x).1.length = 2 ^ m := by
        rw [deinterleave_fst_length, hx2]; omega
      have ho : (deinterleave x).2.length = 2 ^ m := by
        rw [deinterleave_snd_length, hx2]; omega
      have hldef : fft x =
          (List.range (x.length / 2)).map
            (fun k => (fft (deinterleave x).1).getD k 0
              + twiddle x.length k * (fft (deinterleave x).2).getD k 0) ++
          (List.range (x.length / 2)).map
            (fun k => (fft (deinterleave x).1).getD k 0
              - twiddle x.length k * (fft (deinterleave x).2).getD k 0) := by
        rw [fft, dif_neg hnot]
      have hrdef : fftComplex (x.map (fun r : ℝ => (r : ℂ))) =
          (List.range (x.length / 2)).map
            (fun k => (fftComplex ((deinterleave x).1.map (fun r : ℝ => (r : ℂ)))).getD k 0
              + twiddle x.length k *
                (fftComplex ((deinterleave x).2.map (fun r : ℝ => (r : ℂ)))).getD k 0) ++
          (List.range (x.length / 2)).map
            (fun k => (fftComplex ((deinterleave x).1.map (fun r : ℝ => (r : ℂ)))).getD k 0
              - twiddle x.length k *
                (fftComplex ((deinterleave x).2.map (fun r : ℝ => (r : ℂ)))).getD k 0) := by
        rw [fftComplex, dif_neg (by rw [List.length_map]; exact hnot)]
        simp only [deinterleave_map, List.length_map]
      rw [hldef, hrdef, ih _ he, ih _ ho]

/-- DFT description of `fft` on power-of-two-length real inputs. -/
theorem fft_dft (m : ℕ) (x : List ℝ) (hx : x.length = 2 ^ m) :
    (fft x).length = x.length ∧
    ∀ k, k < x.length → (fft x).getD k 0
      = ∑ j ∈ Finset.range x.length,
          ((x.getD j 0 : ℝ) : ℂ) * w x.length (-((j : ℤ) * (k : ℤ))) := by
  have hmap : (x.map (fun r : ℝ => (r : ℂ))).length = x.length := by simp
  obtain ⟨h1, h2⟩ := fftComplex_dft m (x.map (fun r : ℝ => (r : ℂ))) (by rw [hmap, hx])
  rw [fft_eq_fftComplex m x hx]
  constructor
  · rw [h1, hmap]
  · intro k hk
    rw [h2 k (by rw [hmap]; exact hk), hmap]
    exact Finset.sum_congr rfl fun j hj => by rw [getD_map_ofReal]

theorem getD_map_conj (l : List ℂ) :
    ∀ n : ℕ, (l.map (fun c : ℂ => (⟨c.re, -c.im⟩ : ℂ))).getD n 0
      = (starRingEnd ℂ) (l.getD n 0) := by
  induction l with
  | nil =>
      intro n
      simp
  | cons a t ih =>
      intro n
      cases n with
      | zero =>
          simp only [List.map_cons, List.getD_cons_zero]
          apply Complex.ext <;> simp
      | succ n =>
          simp only [List.map_cons, List.getD_cons_succ]
          exact ih n

/-- Unfolding of `ifft` entry-by-entry. -/
theorem ifft_getD (X : List ℂ) (n : ℕ) :
    (ifft X).getD n 0
      = ((fftComplex (X.map (fun c : ℂ => (⟨c.re, -c.im⟩ : ℂ)))).getD n 0).re
        / (X.length : ℝ) := by
  show ((fftComplex (X.map (fun c : ℂ => (⟨c.re, -c.im⟩ : ℂ)))).map
    (fun c => c.re / (X.length : ℝ))).getD n 0 = _
  by_cases h : n < (fftComplex (X.map (fun c : ℂ => (⟨c.re, -c.im⟩ : ℂ)))).length
  · rw [List.getD_eq_getElem _ _ (by simpa using h), List.getElem_map,
      List.getD_eq_getElem _ _ h]
  · rw [List.getD_eq_default _ _ (by simpa using not_lt.mp h),
      List.getD_eq_default _ _ (not_lt.mp h)]
    simp

theorem ifft_length (X : List ℂ) :
    (ifft X).length = (fftComplex (X.map (fun c : ℂ => (⟨c.re, -c.im⟩ : ℂ)))).length := by
  show ((fftComplex (X.map (fun c : ℂ => (⟨c.re, -c.im⟩ : ℂ)))).map
    (fun c => c.re / (X.length : ℝ))).length = _
  rw [List.length_map]

/-- Exact FFT/IFFT round trip on power-of-two-length real inputs
(claim C1's content, as a list equality). -/
theorem ifft_fft (x : List ℝ) (m : ℕ) (hx : x.length = 2 ^ m) :
    ifft (fft x) = x := by
  have hN : 0 < x.length := by rw [hx]; exact pow_pos two_pos m
  obtain ⟨hlen, hentry⟩ := fft_dft m x hx
  set N := x.length with hNdef
  set F := fft x with hFdef
  set G := F.map (fun c : ℂ => (⟨c.re, -c.im⟩ : ℂ)) with hGdef
  have hGlen : G.length = N := by rw [hGdef, List.length_map, hlen]
  have hG : ∀ k, k < N → G.getD k 0
      = ∑ j ∈ Finset.range N, ((x.getD j 0 : ℝ) : ℂ) * w N ((j : ℤ) * (k : ℤ)) := by
    intro k hk
    rw [hGdef, getD_map_conj, hentry k hk, map_sum]
    refine Finset.sum_congr rfl fun j hj => ?_
    rw [map_mul, Complex.conj_ofReal, w_conj, neg_neg]
  obtain ⟨hG2len, hG2⟩ := fftComplex_dft m G (by rw [hGlen, hx])
  have hflen : (ifft F).length = N := by
    rw [ifft_length, ← hGdef, hG2len, hGlen]
  apply List.ext_getElem (by rw [hflen])
  intro i hi1 hi2
  have hiN : i < N := by rw [← hflen]; exact hi1
  have hdouble : (fftComplex G).getD i 0 = ((x.getD i 0 : ℝ) : ℂ) * (N : ℂ) := by
    rw [hG2 i (by rw [hGlen]; exact hiN), hGlen]
    calc ∑ k ∈ Finset.range N, G.getD k 0 * w N (-((k : ℤ) * (i : ℤ)))
        = ∑ k ∈ Finset.range N, ∑ j ∈ Finset.range N,
            ((x.getD j 0 : ℝ) : ℂ) * w N ((j : ℤ) * (k : ℤ)) * w N (-((k : ℤ) * (i : ℤ))) := by
          refine Finset.sum_congr rfl fun k hk => ?_
          rw [hG k (Finset.mem_range.mp hk), Finset.sum_mul]
      _ = ∑ j ∈ Finset.range N,
            ((x.getD j 0 : ℝ) : ℂ) * ∑ k ∈ Finset.range N,
              w N (((j : ℤ) - (i : ℤ)) * (k : ℤ)) := by
          rw [Finset.sum_comm]
          refine Finset.sum_congr rfl fun j hj => ?_
          rw [Finset.mul_sum]
          refine Finset.sum_congr rfl fun k hk => ?_
          rw [mul_assoc, ← w_add]
          congr 1
          exact w_congr _ (by ring)
      _ = ((x.getD i 0 : ℝ) : ℂ) * (N : ℂ) := by
          have hval : ∀ j ∈ Finset.range N,
              ((x.getD j 0 : ℝ) : ℂ) * ∑ k ∈ Finset.range N,
                  w N (((j : ℤ) - (i : ℤ)) * (k : ℤ))
                = if j = i then ((x.getD j 0 : ℝ) : ℂ) * (N : ℂ) else 0 := by
            intro j hj
            rw [w_sum_orthogonal N hN ((j : ℤ) - (i : ℤ))]
            by_cases hji : j = i
            · subst hji
              rw [if_pos rfl, if_pos (by simp)]
            · rw [if_neg ?_, if_neg hji, mul_zero]
              intro hdvd
              have hj' : j < N := Finset.mem_range.mp hj
              have : (j : ℤ) - (i : ℤ) = 0 := by
                refine Int.eq_zero_of_abs_lt_dvd hdvd ?_
                rw [abs_lt]
                constructor <;> [omega; omega]
              exact hji (by omega)
          rw [Finset.sum_congr rfl hval, Finset.sum_ite_eq' (Finset.range N) i
            (fun j => ((x.getD j 0 : ℝ) : ℂ) * (N : ℂ)), if_pos (Finset.mem_range.mpr hiN)]
  have hNR : (N : ℝ) ≠ 0 := Nat.cast_ne_zero.mpr hN.ne'
  rw [← List.getD_eq_getElem (ifft F) 0 hi1, ← List.getD_eq_getElem x 0 hi2,
    ifft_getD, ← hGdef, hdouble, hlen]
  have hre : (((x.getD i 0 : ℝ) : ℂ) * (N : ℂ)).re = x.getD i 0 * (N : ℝ) := by
    have hcast : ((N : ℕ) : ℂ) = (((N : ℕ) : ℝ) : ℂ) := by push_cast; rfl
    rw [hcast, ← Complex.ofReal_mul, Complex.ofReal_re]
  rw [hre]
  field_simp

/-! ## Signal data model and the modulation service -/

/-- `SignalData` (`shared/interfaces/signal-data`): a time axis `x` and a
value axis `y` (JS `Float64Array`s, modelled as real lists). -/
structure SignalData where
  x : List ℝ
  y : List ℝ

/-- JavaScript `Math.atan2(y, x)` over exact reals (signed zeros do not
exist in `ℝ`; `atan2 0 0 = 0` as in JS with positive zeros). -/
def atan2 (y x : ℝ) : ℝ :=
  if 0 < x then Real.arctan (y / x)
  else if x < 0 then
    (if 0 ≤ y then Real.arctan (y / x) + Real.pi else Real.arctan (y / x) - Real.pi)
  else if 0 < y then Real.pi / 2
  else if y < 0 then -(Real.pi / 2)
  else 0

/-- `modulateAM_DSB` (`modulation.service.ts`): `(1 + ma·m(t))·cos(ωc·t)`. -/
def modulateAM_DSB (message : SignalData) (fc ma : ℝ) : List ℝ :=
  (List.range message.y.length).map fun i =>
    (1 + ma * message.y.getD i 0) * Real.cos (2 * Real.pi * fc * message.x.getD i 0)

/-- `modulateAM_DSB_SC`: `ma·m(t)·cos(ωc·t)`. -/
def modulateAM_DSB_SC (message : SignalData) (fc ma : ℝ) : List ℝ :=
  (List.range message.y.length).map fun i =>
    ma * message.y.getD i 0 * Real.cos (2 * Real.pi * fc * message.x.getD i 0)

/-- `modulatePM`: `cos(ωc·t + kp·m(t))`. -/
def modulatePM (m : SignalData) (fc kp : ℝ) : List ℝ :=
  (List.range m.y.length).map fun i =>
    Real.cos (2 * Real.pi * fc * m.x.getD i 0 + kp * m.y.getD i 0)

/-- `modulateFM`: `cos(ωc·t + kf·cumsum(m)/fs)`; the running sum after
step `i` is `∑_{j ≤ i} m(j)`. -/
def modulateFM (m : SignalData) (fc fs kf : ℝ) : List ℝ :=
  (List.range m.y.length).map fun i =>
    Real.cos (2 * Real.pi * fc * m.x.getD i 0
      + kf * (∑ j ∈ Finset.range (i + 1), m.y.getD j 0) / fs)

/-- `hilbertTransform` (`modulation.service.ts`): zero-pad to the next
power of two, `fft`, zero DC and Nyquist, rotate positive bins by `-90°`
and negative bins by `+90°`, `ifft`, keep the first `N` samples.
JS integer comparisons `k === fftLen/2` and `k < fftLen/2` are rendered
as `2*k = L` and `2*k < L`.  (For `N = 0` the JS padding degenerates to
an empty array while `2^(Nat.clog 2 0) = 1` pads one zero; the final
`take 0` makes both produce `[]`.) -/
def paddedValues (signal : SignalData) : List ℝ :=
  signal.y ++ List.replicate (2 ^ Nat.clog 2 signal.y.length - signal.y.length) 0

/-- The per-bin Hilbert frequency filter: zero at DC (`k = 0`) and
Nyquist (`k = fftLen/2`, i.e. `2k = L`), multiply by `-j` below Nyquist
(`{re, im} ↦ {im, -re}`) and by `+j` above (`{re, im} ↦ {-im, re}`). -/
def hilbertFilter (L k : ℕ) (c : ℂ) : ℂ :=
  if k = 0 ∨ 2 * k = L then 0
  else if 2 * k < L then (⟨c.im, -c.re⟩ : ℂ)
  else (⟨-c.im, c.re⟩ : ℂ)

def hilbertTransform (signal : SignalData) : List ℝ :=
  (ifft ((List.range (fft (paddedValues signal)).length).map
    (fun k => hilbertFilter (fft (paddedValues signal)).length k
      ((fft (paddedValues signal)).getD k 0)))).take signal.y.length

/-- `modulateAM_SSB_USB`: `ma·(m(t)·cos(ωc t) − ĥ(m)(t)·sin(ωc t))`
(note the source sizes this loop by `message.x.length`). -/
def modulateAM_SSB_USB (message : SignalData) (fc ma : ℝ) : List ℝ :=
  (List.range message.x.length).map fun i =>
    ma * (message.y.getD i 0 * Real.cos (2 * Real.pi * fc * message.x.getD i 0)
      - (hilbertTransform message).getD i 0 * Real.sin (2 * Real.pi * fc * message.x.getD i 0))

/-- `envelopeDetector`: `sqrt(s² + ĥ(s)²)`. -/
def envelopeDetector (signal : SignalData) : List ℝ :=
  (List.range signal.y.length).map fun i =>
    Real.sqrt (signal.y.getD i 0 * signal.y.getD i 0
      + (hilbertTransform signal).getD i 0 * (hilbertTransform signal).getD i 0)

/-- `demodulateAM_DSB`: `(envelope − 1)/ma`. -/
def demodulateAM_DSB (modulated : SignalData) (fc ma : ℝ) : List ℝ :=
  (List.range modulated.y.length).map fun i =>
    ((envelopeDetector modulated).getD i 0 - 1) / ma

/-- `demodulateAM_DSB_SC`: coherent detection `2·s(t)·cos(ωc t)/ma`. -/
def demodulateAM_DSB_SC (modulated : SignalData) (fc ma : ℝ) : List ℝ :=
  (List.range modulated.y.length).map fun i =>
    (2 * modulated.y.getD i 0 * Real.cos (2 * Real.pi * fc * modulated.x.getD i 0)) / ma

/-- `demodulateAM_SSB_USB`: same coherent detection as `AM-DSB-SC`. -/
def demodulateAM_SSB_USB (modulated : SignalData) (fc ma : ℝ) : List ℝ :=
  (List.range modulated.y.length).map fun i =>
    (2 * modulated.y.getD i 0 * Real.cos (2 * Real.pi * fc * modulated.x.getD i 0)) / ma

/-- `demodulatePM`: `(atan2(ĥ(s), s) − ωc·t)/kp`. -/
def demodulatePM (modulated : SignalData) (fc fs kp : ℝ) : List ℝ :=
  (List.range modulated.y.length).map fun i =>
    (atan2 ((hilbertTransform modulated).getD i 0) (modulated.y.getD i 0)
      - 2 * Real.pi * fc * modulated.x.getD i 0) / kp

/-- `demodulateFM`: interior samples use the central difference with
carrier removal, `((Δφ/2)·fs/(2π) − fc)·fs/kf`; the first and last
samples are overwritten with `(φ[1]−φ[0])·fs/(2π·kf)` and
`(φ[N−1]−φ[N−2])·fs/(2π·kf)` (no `−fc`, different scaling).  The
branches are ordered last-write-first to mirror the source's overwrite
order (for `N = 1` the JS code reads `phase[-1]`/`phase[1]` as
`undefined` and produces `NaN`; `ℝ` has no `NaN`, and no claim evaluates
that case). -/
def instPhase (s : SignalData) (i : ℕ) : ℝ :=
  atan2 ((hilbertTransform s).getD i 0) (s.y.getD i 0)

def demodulateFM (modulated : SignalData) (fc fs kf : ℝ) : List ℝ :=
  (List.range modulated.y.length).map fun i =>
    if i = modulated.y.length - 1 then
      (instPhase modulated (modulated.y.length - 1)
        - instPhase modulated (modulated.y.length - 2)) * fs / (2 * Real.pi * kf)
    else if i = 0 then
      (instPhase modulated 1 - instPhase modulated 0) * fs / (2 * Real.pi * kf)
    else
      ((instPhase modulated (i + 1) - instPhase modulated (i - 1)) / 2 * fs
        / (2 * Real.pi) - fc) * fs / kf

/-- Modelled from the spec: the `Modulations` enum
(`shared/enums/modulations.ts` is not among the provided sources); the
five scheme identifiers of the Modulator/Demodulator contracts, as a TS
string enum whose runtime values are strings. -/
def Modulations.AM_DSB : String := "AM-DSB"

/-- Modelled from the spec: see `Modulations.AM_DSB`. -/
def Modulations.AM_DSB_SC : String := "AM-DSB-SC"

/-- Modelled from the spec: see `Modulations.AM_DSB`. -/
def Modulations.AM_SSB : String := "AM-SSB"

/-- Modelled from the spec: see `Modulations.AM_DSB`. -/
def Modulations.PM : String := "PM"

/-- Modelled from the spec: see `Modulations.AM_DSB`. -/
def Modulations.FM : String := "FM"

/-- The five supported scheme tags. -/
def supportedModulations : List String :=
  [Modulations.AM_DSB, Modulations.AM_DSB_SC, Modulations.AM_SSB,
    Modulations.PM, Modulations.FM]

/-- `modulateSignal` (`transmitter.service.ts`): empty input or an
unknown scheme gives the empty signal; otherwise dispatch and reuse the
input's time axis. -/
def modulateSignal (message : SignalData) (fc fs modulationConst : ℝ)
    (mode : String) : SignalData :=
  if message.x.length = 0 then ⟨[], []⟩
  else if mode = Modulations.AM_DSB then
    ⟨message.x, modulateAM_DSB message fc modulationConst⟩
  else if mode = Modulations.AM_DSB_SC then
    ⟨message.x, modulateAM_DSB_SC message fc modulationConst⟩
  else if mode = Modulations.AM_SSB then
    ⟨message.x, modulateAM_SSB_USB message fc modulationConst⟩
  else if mode = Modulations.PM then
    ⟨message.x, modulatePM message fc modulationConst⟩
  else if mode = Modulations.FM then
    ⟨message.x, modulateFM message fc fs modulationConst⟩
  else ⟨[], []⟩

/-- `demodulateSignal` (`receiver.service.ts`): same shape as
`modulateSignal`, dispatching to the demodulators. -/
def demodulateSignal (modulated : SignalData) (fc fs demodulationConst : ℝ)
    (mode : String) : SignalData :=
  if modulated.x.length = 0 then ⟨[], []⟩
  else if mode = Modulations.AM_DSB then
    ⟨modulated.x, demodulateAM_DSB modulated fc demodulationConst⟩
  else if mode = Modulations.AM_DSB_SC then
    ⟨modulated.x, demodulateAM_DSB_SC modulated fc demodulationConst⟩
  else if mode = Modulations.AM_SSB then
    ⟨modulated.x, demodulateAM_SSB_USB modulated fc demodulationConst⟩
  else if mode = Modulations.PM then
    ⟨modulated.x, demodulatePM modulated fc fs demodulationConst⟩
  else if mode = Modulations.FM then
    ⟨modulated.x, demodulateFM modulated fc fs demodulationConst⟩
  else ⟨[], []⟩

/-! ## Waveform synthesizer (`transmitter.service.ts`) -/

/-- Modelled from the spec: the `SignalTypes` enum
(`shared/enums/signal-types.enum.ts` is not among the provided
sources); the data model's waveform kinds
{sine, cosine, square, triangle, sawtooth}. -/
inductive SignalTypes where
  | SINE
  | COSINE
  | SQUARE
  | TRIANGLE
  | SAWTOOTH
deriving DecidableEq

/-- `Signal` (`shared/interfaces/signal.interface.ts`). -/
structure Signal where
  type : SignalTypes
  amplitude : ℝ
  frequency : ℝ
  phase : ℝ

/-- One oscillator's contribution at time `t` in `createSignal`'s
accumulation switch.  The switch has cases for SINE, SQUARE, TRIANGLE
and SAWTOOTH only; a COSINE oscillator falls through every case and
adds nothing. -/
def signalContribution (s : Signal) (t : ℝ) : ℝ :=
  let f := max 0 s.frequency
  match s.type with
  | SignalTypes.SINE => s.amplitude * Real.sin (2 * Real.pi * f * t + s.phase)
  | SignalTypes.COSINE => 0
  | SignalTypes.SQUARE =>
      s.amplitude * (if 0 ≤ Real.sin (2 * Real.pi * f * t + s.phase) then 1 else -1)
  | SignalTypes.TRIANGLE =>
      s.amplitude * (2 / Real.pi) * Real.arcsin (Real.sin (2 * Real.pi * f * t + s.phase))
  | SignalTypes.SAWTOOTH =>
      s.amplitude * (2 * (f * t - (Int.floor (f * t + 0.5) : ℝ)))

/-- `createSignal`: clamp `fs`, sample count `max(1, round(duration·fs))`,
time axis `i/fs`, value axis accumulating every oscillator's contribution
(the per-oscillator `+=` loop is the sum over the oscillator list in
order). -/
def createSignal (signals : List Signal) (duration fs : ℝ) : SignalData :=
  let fs2 := max 1e-6 fs
  let totalSamples := (max 1 (round (duration * fs2))).toNat
  ⟨(List.range totalSamples).map (fun i : ℕ => (i : ℝ) / fs2),
    (List.range totalSamples).map
      (fun i : ℕ => (signals.map (fun s => signalContribution s ((i : ℝ) / fs2))).sum)⟩

/-! ## `computeSpectrum` (`fourier-transform.service.ts`) -/

/-- `computeSpectrum`: zero-pad the value axis to the next power of two
(`2^⌈log₂ N⌉`, i.e. `2 ^ Nat.clog 2 N` for `N ≥ 1`), `fft`, keep
`⌊fftLen/2⌋ + 1` bins with frequency `k·fs/fftLen` and magnitude
`√(re²+im²)/N` (original `N`!), doubled strictly between DC and
Nyquist (`0 < k ∧ 2·k < fftLen`). -/
def binMagnitude (signal : SignalData) (k : ℕ) : ℝ :=
  Real.sqrt (((fft (paddedValues signal)).getD k 0).re ^ 2
    + ((fft (paddedValues signal)).getD k 0).im ^ 2) / (signal.y.length : ℝ)

def computeSpectrum (signal : SignalData) (fs : ℝ) : SignalData :=
  if signal.x.length = 0 then ⟨[], []⟩
  else
    ⟨(List.range ((fft (paddedValues signal)).length / 2 + 1)).map
        (fun k : ℕ => (k : ℝ) * fs / ((fft (paddedValues signal)).length : ℝ)),
      (List.range ((fft (paddedValues signal)).length / 2 + 1)).map
        (fun k : ℕ =>
          if 0 < k ∧ 2 * k < (fft (paddedValues signal)).length
          then 2 * binMagnitude signal k else binMagnitude signal k)⟩

/-! ## FIR band-pass filter (`filter.service.ts`) -/

/-- A `{x, y}` sample point of `SignalOutput`. -/
structure Point where
  x : ℝ
  y : ℝ

/-- `SignalOutput` (`shared/interfaces/signal-output`). -/
structure SignalOutput where
  data : List Point

/-- `sinc(x) = sin(πx)/(πx)` with the `|x| < 1e-12` guard returning 1. -/
def sinc (x : ℝ) : ℝ :=
  if |x| < 1e-12 then 1 else Real.sin (Real.pi * x) / (Real.pi * x)

/-- The Hamming window `0.54 − 0.46·cos(2πn/(N−1))`. -/
def hammingWindow (N n : ℕ) : ℝ :=
  0.54 - 0.46 * Real.cos (2 * Real.pi * n / ((N : ℝ) - 1))

/-- The pre-normalization band-pass coefficient
`(2·fc2·sinc(2·fc2·k) − 2·fc1·sinc(2·fc1·k))·w[n]`, `k = n − (N−1)/2`. -/
def hRaw (N : ℕ) (fs fLow fHigh : ℝ) (n : ℕ) : ℝ :=
  let M := ((N : ℝ) - 1) / 2
  let fc1 := fLow / fs
  let fc2 := fHigh / fs
  let k := (n : ℝ) - M
  (2 * fc2 * sinc (2 * fc2 * k) - 2 * fc1 * sinc (2 * fc1 * k)) * hammingWindow N n

/-- The band-center DTFT magnitude used by `designBandPassFir`'s gain
normalization: `Math.hypot(Re, Im)` with
`Re = Σ h[n]·cos(−ω₀(n−M))`, `Im = Σ h[n]·sin(−ω₀(n−M))`,
`ω₀ = 2π·f0/fs`, `f0 = (fLow+fHigh)/2` (each `h[n]` with `n < N` is
`hRaw … n`). -/
def firMag (N : ℕ) (fs fLow fHigh : ℝ) : ℝ :=
  let omega0 := 2 * Real.pi * (((fLow + fHigh) / 2) / fs)
  let M := ((N : ℝ) - 1) / 2
  Real.sqrt
    ((∑ n ∈ Finset.range N, hRaw N fs fLow fHigh n * Real.cos (-omega0 * ((n : ℝ) - M))) ^ 2
      + (∑ n ∈ Finset.range N, hRaw N fs fLow fHigh n * Real.sin (-omega0 * ((n : ℝ) - M))) ^ 2)

/-- `designBandPassFir`: windowed-sinc difference kernel, then unity-gain
normalization at the band center `f0 = (fLow+fHigh)/2` (skipped when
`f0 ≤ 0` or the DTFT magnitude there is 0). -/
def designBandPassFir (order : ℕ) (fs fLow fHigh : ℝ) : List ℝ :=
  if 0 < (fLow + fHigh) / 2 then
    (if 0 < firMag order fs fLow fHigh then
      (List.range order).map (fun n => hRaw order fs fLow fHigh n / firMag order fs fLow fHigh)
    else (List.range order).map (hRaw order fs fLow fHigh))
  else (List.range order).map (hRaw order fs fLow fHigh)

/-- `estimateSamplingRate`: reciprocal of the average of the positive
consecutive time deltas (every real is finite, so `isFinite` is
vacuous), clamped below by `1e-12`; lists shorter than 2 give 1. -/
def estimateSamplingRate (signal : SignalOutput) : ℝ :=
  if signal.data.length < 2 then 1
  else
    let dts := (List.range (signal.data.length - 1)).map
      (fun i => (signal.data.getD (i + 1) ⟨0, 0⟩).x - (signal.data.getD i ⟨0, 0⟩).x)
    let pos := dts.filter (fun dt => 0 < dt)
    let avgDt := if pos.length ≠ 0 then pos.sum / (pos.length : ℝ) else 1
    1 / max avgDt 1e-12

/-- `convolveSame`: same-length convolution with implicit zero padding,
`out[n] = Σ_k x[n+k−⌊M/2⌋]·h[k]` over in-bounds shifted indices. -/
def convolveSame (x h : List ℝ) : List ℝ :=
  let N := x.length
  let M := h.length
  let half := M / 2
  (List.range N).map fun n : ℕ =>
    ∑ k ∈ Finset.range M,
      if 0 ≤ (n : ℤ) + (k : ℤ) - (half : ℤ) ∧ (n : ℤ) + (k : ℤ) - (half : ℤ) < (N : ℤ)
      then x.getD ((n : ℤ) + (k : ℤ) - (half : ℤ)).toNat 0 * h.getD k 0
      else 0

/-- `fs = Math.max(1e-6, fs ?? estimateSamplingRate(signal))` from
`bandPass`'s parameter sanitization. -/
def effectiveFs (signal : SignalOutput) (fsOpt : Option ℝ) : ℝ :=
  max 1e-6 (fsOpt.getD (estimateSamplingRate signal))

/-- Cutoff clamping `Math.max(0, Math.min(c, fs/2 − 1e-9))`. -/
def clampCutoff (fs c : ℝ) : ℝ :=
  max 0 (min c (fs / 2 - 1e-9))

/-- Order sanitization: `if (order % 2 === 0) order += 1; order = max(3, order)`. -/
def sanitizeOrder (order : ℕ) : ℕ :=
  max 3 (if order % 2 = 0 then order + 1 else order)

/-- `bandPass` (`filter.service.ts`): sanitize parameters (optional `fs`
estimated from the time axis, clamped to `≥ 1e-6`; order forced odd and
floored at 3; cutoffs clamped to `[0, nyquist − 1e-9]`); if the clamped
low cutoff is not strictly below the high cutoff (`fLow >= fHigh`),
return a value-copy of the input; otherwise convolve with the designed
kernel, keeping the original time axis. -/
def bandPass (signal : SignalOutput) (fLow fHigh : ℝ) (fsOpt : Option ℝ)
    (order : ℕ) : SignalOutput :=
  if signal.data.length = 0 then ⟨[]⟩
  else if clampCutoff (effectiveFs signal fsOpt) fHigh
      ≤ clampCutoff (effectiveFs signal fsOpt) fLow then
    ⟨signal.data.map (fun p => ⟨p.x, p.y⟩)⟩
  else
    ⟨(List.range signal.data.length).map
      (fun i => ⟨(signal.data.getD i ⟨0, 0⟩).x,
        (convolveSame (signal.data.map (fun p => p.y))
          (designBandPassFir (sanitizeOrder order) (effectiveFs signal fsOpt)
            (clampCutoff (effectiveFs signal fsOpt) fLow)
            (clampCutoff (effectiveFs signal fsOpt) fHigh))).getD i 0⟩)⟩

/-! ## Small-input evaluation lemmas -/

theorem twiddle_zero (N : ℕ) : twiddle N 0 = 1 := by
  rw [twiddle, fftAngle]
  norm_num

theorem fft_singleton (a : ℝ) : fft [a] = [((a : ℝ) : ℂ)] := by
  rw [fft, dif_pos (by simp)]
  simp

theorem fft_pair (a b : ℝ) : fft [a, b] = [((a : ℝ) : ℂ) + b, ((a : ℝ) : ℂ) - b] := by
  rw [fft, dif_neg (by simp)]
  have hd : deinterleave [a, b] = ([a], [b]) := by simp [deinterleave]
  simp [hd, fft_singleton, twiddle_zero, List.range_succ]

theorem fftComplex_singleton (a : ℂ) : fftComplex [a] = [a] := by
  rw [fftComplex, dif_pos (by simp)]

theorem fftComplex_pair (a b : ℂ) : fftComplex [a, b] = [a + b, a - b] := by
  rw [fftComplex, dif_neg (by simp)]
  have hd : deinterleave [a, b] = ([a], [b]) := by simp [deinterleave]
  simp [hd, fftComplex_singleton, twiddle_zero, List.range_succ]

theorem ifft_pair (a b : ℂ) :
    ifft [a, b] = [((starRingEnd ℂ) a + (starRingEnd ℂ) b).re / 2,
      ((starRingEnd ℂ) a - (starRingEnd ℂ) b).re / 2] := by
  have hconj : ∀ c : ℂ, (⟨c.re, -c.im⟩ : ℂ) = (starRingEnd ℂ) c := fun c => by
    apply Complex.ext <;> simp
  have hmap : ([a, b].map (fun c : ℂ => (⟨c.re, -c.im⟩ : ℂ)))
      = [(starRingEnd ℂ) a, (starRingEnd ℂ) b] := by
    simp only [List.map_cons, List.map_nil, hconj]
  show ((fftComplex ([a, b].map (fun c : ℂ => (⟨c.re, -c.im⟩ : ℂ)))).map
    (fun c => c.re / (([a, b] : List ℂ).length : ℝ))) = _
  rw [hmap, fftComplex_pair]
  norm_num

theorem clog_two_two : Nat.clog 2 2 = 1 := by
  rw [Nat.clog, dif_pos (by norm_num), Nat.clog, dif_neg (by norm_num)]

theorem clog_two_three : Nat.clog 2 3 = 2 := by
  rw [Nat.clog, dif_pos (by norm_num)]
  norm_num [clog_two_two]

/-! ## Claim theorems -/

/-- C10: the FFT of the empty input is the single bin `(0, 0)` — never
the empty sequence — and in general `fft` output has at least one bin. -/
theorem C10_fft_empty_never_empty :
    fft [] = [(⟨0, 0⟩ : ℂ)] ∧ ∀ xs : List ℝ, 1 ≤ (fft xs).length := by
  constructor
  · rw [fft, dif_pos (by simp)]
    have : ((0 : ℝ) : ℂ) = (⟨0, 0⟩ : ℂ) := by
      apply Complex.ext <;> simp
    simp [this]
  · intro xs
    by_cases h : xs.length ≤ 1
    · rw [fft, dif_pos h]
      simp
    · rw [fft, dif_neg h]
      simp only [List.length_append, List.length_map, List.length_range]
      omega

/-- C1: for real input whose length is a power of two, the inverse FFT of
the forward FFT reconstructs the input exactly (over `ℝ`). -/
theorem C1_ifft_fft_roundtrip (x : List ℝ) (m : ℕ) (h : x.length = 2 ^ m) :
    ifft (fft x) = x :=
  ifft_fft x m h

theorem C1_ifft_fft_roundtrip_witness :
    ([(1 : ℝ), 2].length = 2 ^ 1) ∧ ifft (fft [(1 : ℝ), 2]) = [(1 : ℝ), 2] :=
  ⟨by norm_num, C1_ifft_fft_roundtrip [(1 : ℝ), 2] 1 (by norm_num)⟩

/-- C5: with a non-empty input, when the clamped low cutoff is not
strictly below the clamped high cutoff, `bandPass` is a value-identical
copy: same sample count and, at every index, the same `x` and `y`. -/
theorem C5_bandPass_noop (signal : SignalOutput) (fLow fHigh : ℝ) (fsOpt : Option ℝ)
    (order : ℕ) (hne : signal.data.length ≠ 0)
    (hcl : clampCutoff (effectiveFs signal fsOpt) fHigh
      ≤ clampCutoff (effectiveFs signal fsOpt) fLow) :
    (bandPass signal fLow fHigh fsOpt order).data.length = signal.data.length ∧
    ∀ i, i < signal.data.length →
      ((bandPass signal fLow fHigh fsOpt order).data.getD i ⟨0, 0⟩).x
          = (signal.data.getD i ⟨0, 0⟩).x ∧
      ((bandPass signal fLow fHigh fsOpt order).data.getD i ⟨0, 0⟩).y
          = (signal.data.getD i ⟨0, 0⟩).y := by
  have heta : (fun p : Point => (⟨p.x, p.y⟩ : Point)) = id := funext fun p => rfl
  have hbp : bandPass signal fLow fHigh fsOpt order = ⟨signal.data⟩ := by
    rw [bandPass, if_neg hne, if_pos hcl, heta, List.map_id]
  rw [hbp]
  exact ⟨rfl, fun i _ => ⟨rfl, rfl⟩⟩

theorem C5_bandPass_noop_witness :
    ((⟨[⟨0, 1⟩]⟩ : SignalOutput).data.length ≠ 0) ∧
    (clampCutoff (effectiveFs ⟨[⟨0, 1⟩]⟩ (some 8)) 3
        ≤ clampCutoff (effectiveFs ⟨[⟨0, 1⟩]⟩ (some 8)) 5) ∧
    ((bandPass ⟨[⟨0, 1⟩]⟩ 5 3 (some 8) 101).data.length
        = (⟨[⟨0, 1⟩]⟩ : SignalOutput).data.length ∧
      ∀ i, i < (⟨[⟨0, 1⟩]⟩ : SignalOutput).data.length →
        ((bandPass ⟨[⟨0, 1⟩]⟩ 5 3 (some 8) 101).data.getD i ⟨0, 0⟩).x
            = ((⟨[⟨0, 1⟩]⟩ : SignalOutput).data.getD i ⟨0, 0⟩).x ∧
        ((bandPass ⟨[⟨0, 1⟩]⟩ 5 3 (some 8) 101).data.getD i ⟨0, 0⟩).y
            = ((⟨[⟨0, 1⟩]⟩ : SignalOutput).data.getD i ⟨0, 0⟩).y) :=
  ⟨by simp, by norm_num [clampCutoff, effectiveFs, Option.getD],
    C5_bandPass_noop ⟨[⟨0, 1⟩]⟩ 5 3 (some 8) 101 (by simp)
      (by norm_num [clampCutoff, effectiveFs, Option.getD])⟩

/-- `sinc` is even. -/
theorem sinc_neg (x : ℝ) : sinc (-x) = sinc x := by
  rw [sinc, sinc, abs_neg]
  by_cases h : |x| < 1e-12
  · rw [if_pos h, if_pos h]
  · rw [if_neg h, if_neg h, mul_neg, Real.sin_neg, neg_div_neg_eq]

theorem cos_two_pi_sub (θ : ℝ) : Real.cos (2 * Real.pi - θ) = Real.cos θ := by
  rw [show 2 * Real.pi - θ = -(θ - 2 * Real.pi) from by ring, Real.cos_neg,
    Real.cos_sub_two_pi]

/-- The Hamming window is palindromic. -/
theorem hammingWindow_symm (N n : ℕ) (hn : n < N) :
    hammingWindow N (N - 1 - n) = hammingWindow N n := by
  by_cases hN1 : N = 1
  · subst hN1
    have hn0 : n = 0 := by omega
    subst hn0
    rfl
  · have h2 : 2 ≤ N := by omega
    have hNR : ((N : ℝ) - 1) ≠ 0 := by
      have h2R : (2 : ℝ) ≤ (N : ℝ) := by exact_mod_cast h2
      linarith
    rw [hammingWindow, hammingWindow]
    have hcast : ((N - 1 - n : ℕ) : ℝ) = (N : ℝ) - 1 - (n : ℝ) := by
      push_cast [Nat.cast_sub (by omega : n ≤ N - 1), Nat.cast_sub (by omega : 1 ≤ N)]
      ring
    have harg : 2 * Real.pi * ((N - 1 - n : ℕ) : ℝ) / ((N : ℝ) - 1)
        = 2 * Real.pi - 2 * Real.pi * (n : ℝ) / ((N : ℝ) - 1) := by
      rw [hcast]
      field_simp
      ring
    rw [harg, cos_two_pi_sub]

/-- The pre-normalization kernel is palindromic. -/
theorem hRaw_symm (N : ℕ) (fs fLow fHigh : ℝ) (n : ℕ) (hn : n < N) :
    hRaw N fs fLow fHigh (N - 1 - n) = hRaw N fs fLow fHigh n := by
  have hs : ∀ c z : ℝ, sinc (c * -z) = sinc (c * z) := by
    intro c z
    rw [mul_neg, sinc_neg]
  have hcast : ((N - 1 - n : ℕ) : ℝ) = (N : ℝ) - 1 - (n : ℝ) := by
    push_cast [Nat.cast_sub (by omega : n ≤ N - 1), Nat.cast_sub (by omega : 1 ≤ N)]
    ring
  have hk : ((N - 1 - n : ℕ) : ℝ) - ((N : ℝ) - 1) / 2
      = -((n : ℝ) - ((N : ℝ) - 1) / 2) := by
    rw [hcast]
    ring
  simp only [hRaw]
  rw [hammingWindow_symm N n hn, hk, hs, hs]

/-- C6: after the boundary forces the order odd and at least 3, the
designed FIR kernel is palindromic, `h[n] = h[N−1−n]`, and the symmetry
survives the band-center gain normalization. -/
theorem C6_designBandPassFir_palindromic (N : ℕ) (fs fLow fHigh : ℝ)
    (hodd : Odd N) (h3 : 3 ≤ N) (n : ℕ) (hn : n < N) :
    (designBandPassFir N fs fLow fHigh).getD n 0
      = (designBandPassFir N fs fLow fHigh).getD (N - 1 - n) 0 := by
  have hn2 : N - 1 - n < N := by omega
  rw [designBandPassFir]
  by_cases h1 : 0 < (fLow + fHigh) / 2
  · rw [if_pos h1]
    by_cases h2 : 0 < firMag N fs fLow fHigh
    · rw [if_pos h2, getD_map_range _ _ _ hn, getD_map_range _ _ _ hn2,
        hRaw_symm N fs fLow fHigh n hn]
    · rw [if_neg h2, getD_map_range _ _ _ hn, getD_map_range _ _ _ hn2,
        hRaw_symm N fs fLow fHigh n hn]
  · rw [if_neg h1, getD_map_range _ _ _ hn, getD_map_range _ _ _ hn2,
      hRaw_symm N fs fLow fHigh n hn]

theorem C6_designBandPassFir_palindromic_witness :
    Odd 3 ∧ 3 ≤ 3 ∧ 0 < 3 ∧
    (designBandPassFir 3 2 (1 / 4) (1 / 2)).getD 0 0
      = (designBandPassFir 3 2 (1 / 4) (1 / 2)).getD (3 - 1 - 0) 0 :=
  ⟨⟨1, by norm_num⟩, le_refl 3, by norm_num,
    C6_designBandPassFir_palindromic 3 2 (1 / 4) (1 / 2) ⟨1, by norm_num⟩
      (le_refl 3) 0 (by norm_num)⟩

/-- C9: for non-empty input and a supported scheme, modulation and
demodulation both return the input's own time axis unchanged (the
embedding is purely functional, so the input itself is untouched — and
indeed every write in the source targets a freshly allocated buffer). -/
theorem C9_time_axis_preserved (m : SignalData) (fc fs k : ℝ) (mode : String)
    (hne : m.x.length ≠ 0) (hsup : mode ∈ supportedModulations) :
    (modulateSignal m fc fs k mode).x = m.x ∧
    (demodulateSignal m fc fs k mode).x = m.x := by
  have hsup' : mode = Modulations.AM_DSB ∨ mode = Modulations.AM_DSB_SC ∨
      mode = Modulations.AM_SSB ∨ mode = Modulations.PM ∨ mode = Modulations.FM := by
    simpa [supportedModulations] using hsup
  rcases hsup' with h | h | h | h | h <;> subst h <;>
    constructor <;>
      simp [modulateSignal, demodulateSignal, hne, Modulations.AM_DSB,
        Modulations.AM_DSB_SC, Modulations.AM_SSB, Modulations.PM, Modulations.FM]

theorem C9_time_axis_preserved_witness :
    ((⟨[0], [1]⟩ : SignalData).x.length ≠ 0) ∧
    Modulations.PM ∈ supportedModulations ∧
    ((modulateSignal ⟨[0], [1]⟩ 0 1 1 Modulations.PM).x = (⟨[0], [1]⟩ : SignalData).x ∧
      (demodulateSignal ⟨[0], [1]⟩ 0 1 1 Modulations.PM).x = (⟨[0], [1]⟩ : SignalData).x) :=
  ⟨by simp, by simp [supportedModulations],
    C9_time_axis_preserved ⟨[0], [1]⟩ 0 1 1 Modulations.PM (by simp)
      (by simp [supportedModulations])⟩

/-- C8: for both `modulateSignal` and `demodulateSignal`, the output is
the empty signal (both axes empty) exactly when the input is empty or
the scheme is not one of the five supported ones; no exception paths
exist. -/
theorem C8_empty_output_iff (m : SignalData) (fc fs k : ℝ) (mode : String) :
    (((modulateSignal m fc fs k mode).x = [] ∧ (modulateSignal m fc fs k mode).y = [])
        ↔ (m.x = [] ∨ mode ∉ supportedModulations)) ∧
    (((demodulateSignal m fc fs k mode).x = [] ∧ (demodulateSignal m fc fs k mode).y = [])
        ↔ (m.x = [] ∨ mode ∉ supportedModulations)) := by
  by_cases hx : m.x.length = 0
  · have hxe : m.x = [] := List.length_eq_zero.mp hx
    rw [modulateSignal, if_pos hx, demodulateSignal, if_pos hx]
    simp [hxe]
  · have hxe : m.x ≠ [] := fun h => hx (by rw [h]; rfl)
    by_cases hm : mode ∈ supportedModulations
    · have hsup' : mode = Modulations.AM_DSB ∨ mode = Modulations.AM_DSB_SC ∨
          mode = Modulations.AM_SSB ∨ mode = Modulations.PM ∨ mode = Modulations.FM := by
        simpa [supportedModulations] using hm
      rcases hsup' with h | h | h | h | h <;> subst h <;>
        constructor <;>
          simp [modulateSignal, demodulateSignal, hx, hxe, supportedModulations,
            Modulations.AM_DSB, Modulations.AM_DSB_SC, Modulations.AM_SSB,
            Modulations.PM, Modulations.FM]
    · have hne : mode ≠ Modulations.AM_DSB ∧ mode ≠ Modulations.AM_DSB_SC ∧
          mode ≠ Modulations.AM_SSB ∧ mode ≠ Modulations.PM ∧ mode ≠ Modulations.FM := by
        refine ⟨?_, ?_, ?_, ?_, ?_⟩ <;> intro h <;>
          exact hm (by simp [supportedModulations, h])
      obtain ⟨h1, h2, h3, h4, h5⟩ := hne
      rw [modulateSignal, if_neg hx, if_neg h1, if_neg h2, if_neg h3, if_neg h4, if_neg h5,
        demodulateSignal, if_neg hx, if_neg h1, if_neg h2, if_neg h3, if_neg h4, if_neg h5]
      simp [hm]

/-- C7: `createSignal` produces exactly `max(1, round(duration·fs'))`
samples (`fs'` the epsilon-floored rate) with time axis `i/fs'`; and the
single zero-frequency unit sine at 1 s / 10 Hz gives 10 samples, all 0. -/
theorem C7_createSignal_sampling (signals : List Signal) (d fs : ℝ) :
    (createSignal signals d fs).x.length = (max 1 (round (d * max 1e-6 fs))).toNat ∧
    (createSignal signals d fs).y.length = (max 1 (round (d * max 1e-6 fs))).toNat ∧
    (∀ i, i < (max 1 (round (d * max 1e-6 fs))).toNat →
      (createSignal signals d fs).x.getD i 0 = (i : ℝ) / max 1e-6 fs) ∧
    (createSignal [⟨SignalTypes.SINE, 1, 0, 0⟩] 1 10).y.length = 10 ∧
    ∀ i, i < 10 → (createSignal [⟨SignalTypes.SINE, 1, 0, 0⟩] 1 10).y.getD i 0 = 0 := by
  have h10 : (max 1 (round ((1 : ℝ) * max 1e-6 10))).toNat = 10 := by
    have hm : max (1e-6 : ℝ) 10 = 10 := by norm_num
    rw [hm, show ((1 : ℝ) * 10) = ((10 : ℕ) : ℝ) from by norm_num, round_natCast]
    decide
  refine ⟨by simp [createSignal], by simp [createSignal], ?_, ?_, ?_⟩
  · intro i hi
    simp only [createSignal]
    rw [getD_map_range _ _ _ hi]
  · simp only [createSignal, List.length_map, List.length_range]
    exact h10
  · intro i hi
    simp only [createSignal]
    rw [h10, getD_map_range _ _ _ hi]
    simp [signalContribution]

theorem C7_createSignal_sampling_witness :
    (0 < (max 1 (round ((2 : ℝ) * max 1e-6 3))).toNat ∧
      (createSignal [] 2 3).x.getD 0 0 = (0 : ℝ) / max 1e-6 3) ∧
    (0 < 10 ∧ (createSignal [⟨SignalTypes.SINE, 1, 0, 0⟩] 1 10).y.getD 0 0 = 0) := by
  have h := C7_createSignal_sampling [] 2 3
  have hpos : 0 < (max 1 (round ((2 : ℝ) * max 1e-6 3))).toNat := by
    have : (1 : ℤ) ≤ max 1 (round ((2 : ℝ) * max 1e-6 3)) := le_max_left _ _
    omega
  exact ⟨⟨hpos, (h.2.2.1 0 hpos).trans (by norm_num)⟩,
    ⟨by norm_num, h.2.2.2.2 0 (by norm_num)⟩⟩

/-- C3: `createSignal`'s accumulation switch has no COSINE case, so a
cosine oscillator contributes nothing: with a single
`{cosine, A = 1, f = 0, φ = 0}` oscillator at 1 s / 1 Hz the produced
value axis is `[0]`, while the claimed contribution
`A·cos(2π·f·t + φ)` at that sample is `1`. -/
theorem C3_cosine_case_missing :
    (createSignal [⟨SignalTypes.COSINE, 1, 0, 0⟩] 1 1).y = [0] ∧
    (1 : ℝ) * Real.cos (2 * Real.pi * max 0 0 * ((0 : ℝ) / max 1e-6 1) + 0) = 1 := by
  constructor
  · have h1 : (max 1 (round ((1 : ℝ) * max 1e-6 1))).toNat = 1 := by
      have hm : max (1e-6 : ℝ) 1 = 1 := by norm_num
      rw [hm, show ((1 : ℝ) * 1) = ((1 : ℕ) : ℝ) from by norm_num, round_natCast]
      norm_num
    simp only [createSignal, h1]
    simp [signalContribution]
  · norm_num

theorem atan2_zero_one : atan2 0 1 = 0 := by
  rw [atan2, if_pos one_pos]
  norm_num

theorem fft_ones_pair : fft [(1 : ℝ), 1] = [(2 : ℂ), 0] := by
  rw [fft_pair]
  norm_num

theorem hilbert_pair_ones : hilbertTransform ⟨[0, 1], [1, 1]⟩ = [0, 0] := by
  have hpv : paddedValues ⟨[0, 1], [1, 1]⟩ = [(1 : ℝ), 1] := by
    simp [paddedValues, clog_two_two]
  rw [hilbertTransform, hpv, fft_ones_pair]
  have hfil : ((List.range ([(2 : ℂ), 0] : List ℂ).length).map
      (fun k => hilbertFilter ([(2 : ℂ), 0] : List ℂ).length k
        (([(2 : ℂ), 0] : List ℂ).getD k 0))) = [0, 0] := by
    simp [List.range_succ, hilbertFilter]
  rw [hfil, ifft_pair]
  norm_num

theorem instPhase_pair_ones_zero : instPhase ⟨[0, 1], [1, 1]⟩ 0 = 0 := by
  rw [instPhase, hilbert_pair_ones]
  simpa using atan2_zero_one

theorem instPhase_pair_ones_one : instPhase ⟨[0, 1], [1, 1]⟩ 1 = 0 := by
  rw [instPhase, hilbert_pair_ones]
  simpa using atan2_zero_one

/-- C2 counterexample: at the length-2 constant signal `y = [1, 1]`
(time axis `[0, 1]`) with `fc = fs = k = 1`, the code's first output
sample is `0`, while the claimed uniform formula
`((Δφ·fs/2π) − fc)·fs/k` (forward difference at the first sample)
evaluates to `−1`. -/
theorem C2_demodulateFM_boundary_counterexample :
    (demodulateFM ⟨[0, 1], [1, 1]⟩ 1 1 1).getD 0 0
      ≠ ((instPhase ⟨[0, 1], [1, 1]⟩ 1 - instPhase ⟨[0, 1], [1, 1]⟩ 0) * 1
          / (2 * Real.pi) - 1) * 1 / 1 := by
  have hy : (⟨[0, 1], [1, 1]⟩ : SignalData).y.length = 2 := rfl
  have hlhs : (demodulateFM ⟨[0, 1], [1, 1]⟩ 1 1 1).getD 0 0 = 0 := by
    rw [demodulateFM, hy, getD_map_range _ _ _ (by norm_num), if_neg (by norm_num),
      if_pos rfl, instPhase_pair_ones_zero, instPhase_pair_ones_one]
    ring
  rw [hlhs, instPhase_pair_ones_zero, instPhase_pair_ones_one]
  norm_num

/-- C2 amended: the interior samples follow
`((Δφ_central·fs/2π) − fc)·fs/k`, but the two boundary samples are
`Δφ·fs/(2π·k)` (forward/backward difference) — without the carrier
subtraction `− fc` and without the extra `·fs` normalization of the
interior formula. -/
theorem C2_demodulateFM_formula (s : SignalData) (fc fs kf : ℝ) (hN : 2 ≤ s.y.length) :
    (demodulateFM s fc fs kf).length = s.y.length ∧
    (∀ i, 1 ≤ i → i ≤ s.y.length - 2 →
      (demodulateFM s fc fs kf).getD i 0
        = ((instPhase s (i + 1) - instPhase s (i - 1)) / 2 * fs / (2 * Real.pi) - fc)
          * fs / kf) ∧
    (demodulateFM s fc fs kf).getD 0 0
      = (instPhase s 1 - instPhase s 0) * fs / (2 * Real.pi * kf) ∧
    (demodulateFM s fc fs kf).getD (s.y.length - 1) 0
      = (instPhase s (s.y.length - 1) - instPhase s (s.y.length - 2)) * fs
        / (2 * Real.pi * kf) := by
  refine ⟨by simp [demodulateFM], ?_, ?_, ?_⟩
  · intro i h1 h2
    rw [demodulateFM, getD_map_range _ _ _ (by omega), if_neg (by omega), if_neg (by omega)]
  · rw [demodulateFM, getD_map_range _ _ _ (by omega), if_neg (by omega), if_pos rfl]
  · rw [demodulateFM, getD_map_range _ _ _ (by omega), if_pos rfl]

theorem C2_demodulateFM_formula_witness :
    2 ≤ (⟨[0, 1], [1, 1]⟩ : SignalData).y.length ∧
    ((demodulateFM ⟨[0, 1], [1, 1]⟩ 1 1 1).length = (⟨[0, 1], [1, 1]⟩ : SignalData).y.length ∧
      (∀ i, 1 ≤ i → i ≤ (⟨[0, 1], [1, 1]⟩ : SignalData).y.length - 2 →
        (demodulateFM ⟨[0, 1], [1, 1]⟩ 1 1 1).getD i 0
          = ((instPhase ⟨[0, 1], [1, 1]⟩ (i + 1) - instPhase ⟨[0, 1], [1, 1]⟩ (i - 1)) / 2 * 1
            / (2 * Real.pi) - 1) * 1 / 1) ∧
      (demodulateFM ⟨[0, 1], [1, 1]⟩ 1 1 1).getD 0 0
        = (instPhase ⟨[0, 1], [1, 1]⟩ 1 - instPhase ⟨[0, 1], [1, 1]⟩ 0) * 1
          / (2 * Real.pi * 1) ∧
      (demodulateFM ⟨[0, 1], [1, 1]⟩ 1 1 1).getD ((⟨[0, 1], [1, 1]⟩ : SignalData).y.length - 1) 0
        = (instPhase ⟨[0, 1], [1, 1]⟩ ((⟨[0, 1], [1, 1]⟩ : SignalData).y.length - 1)
            - instPhase ⟨[0, 1], [1, 1]⟩ ((⟨[0, 1], [1, 1]⟩ : SignalData).y.length - 2)) * 1
          / (2 * Real.pi * 1)) :=
  ⟨le_refl 2, C2_demodulateFM_formula ⟨[0, 1], [1, 1]⟩ 1 1 1 (le_refl 2)⟩

theorem fft_delta_four : fft [(1 : ℝ), 0, 0, 0] = [1, 1, 1, 1] := by
  rw [fft, dif_neg (by simp)]
  have hd : deinterleave [(1 : ℝ), 0, 0, 0] = ([1, 0], [0, 0]) := by
    simp [deinterleave]
  simp [hd, fft_pair, List.range_succ]

theorem paddedValues_delta : paddedValues ⟨[0, 0, 0], [1, 0, 0]⟩ = [1, 0, 0, 0] := by
  simp [paddedValues, clog_two_three, List.replicate]

/-- C4 counterexample: for the 3-sample input `y = [1, 0, 0]` (padded to
4), the DC bin magnitude produced by the code is `|X₀|/3` (division by
the ORIGINAL length), not the claimed `|X₀|/4` (division by the padded
length). -/
theorem C4_computeSpectrum_counterexample :
    (computeSpectrum ⟨[0, 0, 0], [1, 0, 0]⟩ 4).y.getD 0 0
      ≠ Real.sqrt (((fft (paddedValues ⟨[0, 0, 0], [1, 0, 0]⟩)).getD 0 0).re ^ 2
          + ((fft (paddedValues ⟨[0, 0, 0], [1, 0, 0]⟩)).getD 0 0).im ^ 2)
        / ((paddedValues ⟨[0, 0, 0], [1, 0, 0]⟩).length : ℝ) := by
  have hF0 : (fft (paddedValues ⟨[0, 0, 0], [1, 0, 0]⟩)).getD 0 0 = 1 := by
    rw [paddedValues_delta, fft_delta_four]
    rfl
  have hL : (fft (paddedValues ⟨[0, 0, 0], [1, 0, 0]⟩)).length = 4 := by
    rw [paddedValues_delta, fft_delta_four]
    rfl
  have hmag : binMagnitude ⟨[0, 0, 0], [1, 0, 0]⟩ 0 = 1 / 3 := by
    rw [binMagnitude, hF0]
    norm_num
  have hlhs : (computeSpectrum ⟨[0, 0, 0], [1, 0, 0]⟩ 4).y.getD 0 0 = 1 / 3 := by
    rw [computeSpectrum, if_neg (by simp)]
    show ((List.range ((fft (paddedValues ⟨[0, 0, 0], [1, 0, 0]⟩)).length / 2 + 1)).map
      (fun k : ℕ =>
        if 0 < k ∧ 2 * k < (fft (paddedValues ⟨[0, 0, 0], [1, 0, 0]⟩)).length
        then 2 * binMagnitude ⟨[0, 0, 0], [1, 0, 0]⟩ k
        else binMagnitude ⟨[0, 0, 0], [1, 0, 0]⟩ k)).getD 0 0 = 1 / 3
    rw [hL, getD_map_range _ _ _ (by norm_num), if_neg (by norm_num), hmag]
  rw [hlhs, hF0, paddedValues_delta]
  norm_num

theorem paddedValues_length (s : SignalData) :
    (paddedValues s).length = 2 ^ Nat.clog 2 s.y.length := by
  rw [paddedValues]
  simp only [List.length_append, List.length_replicate]
  have := Nat.le_pow_clog (by norm_num : 1 < 2) s.y.length
  omega

/-- C4 amended: for non-empty input, `computeSpectrum` returns
`⌊P/2⌋+1` bins (`P` the padded, power-of-two length), frequency axis
`k·fs/P`, and magnitude `√(re²+im²)/N` with `N` the ORIGINAL input
length, doubled exactly for `0 < k < P/2`. -/
theorem C4_computeSpectrum_bins (s : SignalData) (fs : ℝ) (hx : s.x.length ≠ 0) :
    (computeSpectrum s fs).x.length = (paddedValues s).length / 2 + 1 ∧
    (computeSpectrum s fs).y.length = (paddedValues s).length / 2 + 1 ∧
    ∀ k, k ≤ (paddedValues s).length / 2 →
      (computeSpectrum s fs).x.getD k 0 = (k : ℝ) * fs / ((paddedValues s).length : ℝ) ∧
      (computeSpectrum s fs).y.getD k 0
        = (if 0 < k ∧ 2 * k < (paddedValues s).length then 2 else 1)
          * (Real.sqrt (((fft (paddedValues s)).getD k 0).re ^ 2
              + ((fft (paddedValues s)).getD k 0).im ^ 2) / (s.y.length : ℝ)) := by
  have hlen : (fft (paddedValues s)).length = (paddedValues s).length :=
    (fft_dft (Nat.clog 2 s.y.length) (paddedValues s) (paddedValues_length s)).1
  refine ⟨?_, ?_, ?_⟩
  · rw [computeSpectrum, if_neg hx]
    show ((List.range ((fft (paddedValues s)).length / 2 + 1)).map
      (fun k : ℕ => (k : ℝ) * fs / ((fft (paddedValues s)).length : ℝ))).length = _
    rw [List.length_map, List.length_range, hlen]
  · rw [computeSpectrum, if_neg hx]
    show ((List.range ((fft (paddedValues s)).length / 2 + 1)).map
      (fun k : ℕ =>
        if 0 < k ∧ 2 * k < (fft (paddedValues s)).length
        then 2 * binMagnitude s k else binMagnitude s k)).length = _
    rw [List.length_map, List.length_range, hlen]
  · intro k hk
    constructor
    · rw [computeSpectrum, if_neg hx]
      show ((List.range ((fft (paddedValues s)).length / 2 + 1)).map
        (fun k : ℕ => (k : ℝ) * fs / ((fft (paddedValues s)).length : ℝ))).getD k 0 = _
      rw [getD_map_range _ _ _ (by rw [hlen]; omega), hlen]
    · rw [computeSpectrum, if_neg hx]
      show ((List.range ((fft (paddedValues s)).length / 2 + 1)).map
        (fun k : ℕ =>
          if 0 < k ∧ 2 * k < (fft (paddedValues s)).length
          then 2 * binMagnitude s k else binMagnitude s k)).getD k 0 = _
      rw [getD_map_range _ _ _ (by rw [hlen]; omega), hlen, binMagnitude]
      by_cases hc : 0 < k ∧ 2 * k < (paddedValues s).length
      · rw [if_pos hc, if_pos hc]
      · rw [if_neg hc, if_neg hc, one_mul]

theorem C4_computeSpectrum_bins_witness :
    ((⟨[0, 0, 0], [1, 0, 0]⟩ : SignalData).x.length ≠ 0) ∧
    ((computeSpectrum ⟨[0, 0, 0], [1, 0, 0]⟩ 4).x.length
        = (paddedValues ⟨[0, 0, 0], [1, 0, 0]⟩).length / 2 + 1 ∧
      (computeSpectrum ⟨[0, 0, 0], [1, 0, 0]⟩ 4).y.length
        = (paddedValues ⟨[0, 0, 0], [1, 0, 0]⟩).length / 2 + 1 ∧
      ∀ k, k ≤ (paddedValues ⟨[0, 0, 0], [1, 0, 0]⟩).length / 2 →
        (computeSpectrum ⟨[0, 0, 0], [1, 0, 0]⟩ 4).x.getD k 0
            = (k : ℝ) * 4 / ((paddedValues ⟨[0, 0, 0], [1, 0, 0]⟩).length : ℝ) ∧
        (computeSpectrum ⟨[0, 0, 0], [1, 0, 0]⟩ 4).y.getD k 0
            = (if 0 < k ∧ 2 * k < (paddedValues ⟨[0, 0, 0], [1, 0, 0]⟩).length then 2 else 1)
              * (Real.sqrt (((fft (paddedValues ⟨[0, 0, 0], [1, 0, 0]⟩)).getD k 0).re ^ 2
                  + ((fft (paddedValues ⟨[0, 0, 0], [1, 0, 0]⟩)).getD k 0).im ^ 2)
                / ((⟨[0, 0, 0], [1, 0, 0]⟩ : SignalData).y.length : ℝ))) :=
  ⟨by simp, C4_computeSpectrum_bins ⟨[0, 0, 0], [1, 0, 0]⟩ 4 (by simp)⟩

end

end SignalSim
